import Mathlib

/-!
Verification of the data-normalization and aggregation pipeline of
`app_SV_cloud.py` (Honda market-switching dashboard).

The Python code is shallowly embedded as follows.

* Python strings are Lean `String`s; the character-level work is done over
  `List Char` (`String.data`), since the data handled by the app is plain
  ASCII.  `str.strip` / `str.lower` / `str.startswith` / `str.split` /
  substring containment are modelled by `strip'`, `lower'`, `listIsPre`,
  `words`, `listHasSub` below, word-for-word from Python's semantics
  (splitting on runs of whitespace and dropping empty tokens, etc.).
* A pandas cell that may hold NaN is an `Option`: `Option String` for the
  free-text model columns (`str.contains(..., na=False)` maps `none` to
  `false`), `Option ℚ` for the result of `pd.to_numeric(..., errors =
  coerce)` where `none` is NaN.  `.fillna(0)` is `Option.getD 0`.
  Floats are modelled as exact rationals `ℚ`.
* `groupby(key)[w].sum()` (pandas default `sort=True`) produces the group
  keys in ascending lexical order with the per-group sums;
  `sort_values(ascending=False)` is modelled as an ascending insertion
  sort by value followed by a reversal (pandas' `nargsort`: ascending
  argsort, then `[::-1]`), and `.head(n)` is `List.take n`.  The app uses
  the default `kind='quicksort'`, which pandas documents as unstable, so
  the program fixes no order among groups of equal summed weight; the
  executable model necessarily picks one concrete order, and the theorems
  below rely only on its tie-independent properties (value-sortedness and
  length) — except the C4 counterexample, whose two-element tied array is
  below numpy's insertion-sort cutoff, where the real sort is stable and
  agrees with the model.
* String comparison (used for the lexical order of group keys) is the
  executable code-point lexicographic order `lexLt` on `List Char`;
  Lean's built-in `String.lt` denotes the same order but its decision
  procedure does not reduce in the kernel, so the executable variant is
  used throughout.
-/

/-! ### Python string primitives -/

/-- Python `str` whitespace test (the app's data is ASCII). -/
def pyIsSpace (c : Char) : Bool := c.isWhitespace

/-- Python `str.lower` (ASCII). -/
def lower' (l : List Char) : List Char := l.map Char.toLower

/-- Python `str.strip`: drop whitespace from both ends. -/
def strip' (l : List Char) : List Char :=
  ((l.dropWhile pyIsSpace).reverse.dropWhile pyIsSpace).reverse

/-- `listIsPre pat l` is true when `pat` is a leading segment of `l`
(Python `l.startswith(pat)`). -/
def listIsPre : List Char → List Char → Bool
  | [], _ => true
  | _ :: _, [] => false
  | p :: ps, c :: cs => p == c && listIsPre ps cs

/-- Python `s.startswith(pre)`. -/
def startsWith' (s pre : List Char) : Bool := listIsPre pre s

/-- `listHasSub pat l`: `pat` occurs as a contiguous segment of `l`
(Python `pat in l`). -/
def listHasSub (pat : List Char) : List Char → Bool
  | [] => listIsPre pat []
  | c :: cs => listIsPre pat (c :: cs) || listHasSub pat cs

/-- Helper for `words`: put `c` at the front of the first word of `ws`. -/
def prependChar (c : Char) (ws : List (List Char)) : List (List Char) :=
  match ws with
  | [] => [[c]]
  | w :: ws2 => (c :: w) :: ws2

/-- Helper for `words`: extend the splitting of `cs` (already computed as
`ws`) with a leading non-whitespace character `c`. -/
def consWord (c : Char) (cs : List Char) (ws : List (List Char)) : List (List Char) :=
  match cs with
  | [] => [[c]]
  | d :: _ => if pyIsSpace d then [c] :: ws else prependChar c ws

/-- Python `str.split()` with no separator: maximal runs of
non-whitespace characters, empty tokens never produced. -/
def words : List Char → List (List Char)
  | [] => []
  | c :: cs =>
    if pyIsSpace c then words cs
    else consWord c cs (words cs)

/-- Code-point lexicographic order on character lists: the order Python
uses to compare strings (and pandas to sort group keys). -/
def lexLt : List Char → List Char → Bool
  | [], [] => false
  | [], _ :: _ => true
  | _ :: _, [] => false
  | a :: as, b :: bs => if a < b then true else if b < a then false else lexLt as bs

/-- Python `str.strip` on `String`. -/
def pyStrip (s : String) : String := String.mk (strip' s.data)

/-- Python `str.lower` on `String`. -/
def pyLower (s : String) : String := String.mk (lower' s.data)

/-- Python `s.startswith(pre)` on `String`. -/
def pyStartswith (s pre : String) : Bool := listIsPre pre.data s.data

/-- Python `s.split()` on `String`. -/
def pySplit (s : String) : List String := (words s.data).map String.mk

/-- Case-insensitive substring containment on an optional string cell:
pandas `Series.str.contains(pat, case=False, na=False)` (the patterns the
app passes contain no regex metacharacters). -/
def containsOptCI (cell : Option String) (pat : String) : Bool :=
  match cell with
  | none => false
  | some s => listHasSub (lower' pat.data) (lower' s.data)

/-! ### `clean_model_name` (source lines 25-33)

```python
def clean_model_name(brand, model):
    brand, model = str(brand).strip(), str(model).strip()
    full = model if model.lower().startswith(brand.lower()) else f"{brand} {model}"
    words = full.split()
    if len(words) >= 2:
        if words[1].lower() == 'model' and len(words) >= 3:
            return f"{words[0]} {words[1]} {words[2]}"
        return f"{words[0]} {words[1]}"
    return full
```
-/

/-- `full = model if model.lower().startswith(brand.lower()) else f"{brand} {model}"`
applied to the stripped inputs. -/
def fullToken (brand model : List Char) : List Char :=
  if startsWith' (lower' (strip' model)) (lower' (strip' brand)) then strip' model
  else strip' brand ++ ' ' :: strip' model

/-- Body of `clean_model_name`, translated clause by clause from the
Python source (indexing `words[i]` is `List.getD i`). -/
def cleanCore (brand model : List Char) : List Char :=
  let ws := words (fullToken brand model)
  if 2 ≤ ws.length then
    if lower' (ws.getD 1 []) = "model".data ∧ 3 ≤ ws.length then
      ws.getD 0 [] ++ ' ' :: (ws.getD 1 [] ++ ' ' :: ws.getD 2 [])
    else ws.getD 0 [] ++ ' ' :: ws.getD 1 []
  else fullToken brand model

/-- `clean_model_name` from the source, as a `String` function. -/
def clean_model_name (brand model : String) : String :=
  String.mk (cleanCore brand.data model.data)

/-- The canonical-name derivation exactly as the spec words it: split the
full token sequence; with at least two words whose second word is
case-insensitively `model` and at least three words, keep three words;
otherwise with at least two words keep two; otherwise return the full
string unchanged. -/
def cleanCoreSpec (brand model : List Char) : List Char :=
  match words (fullToken brand model) with
  | w0 :: w1 :: w2 :: _ =>
    if lower' w1 = "model".data then w0 ++ ' ' :: (w1 ++ ' ' :: w2)
    else w0 ++ ' ' :: w1
  | [w0, w1] => w0 ++ ' ' :: w1
  | _ => fullToken brand model

/-- Spec-side canonical model name on `String`. -/
def cleanModelNameSpec (brand model : String) : String :=
  String.mk (cleanCoreSpec brand.data model.data)

/-! ### Data model and load-time normalization (source lines 11-37) -/

/-- A raw survey row as read from the CSV.  The free-text model cells may
be NaN (`none`); the numeric fields are the outcome of
`pd.to_numeric(..., errors='coerce')`, with `none` for NaN (missing or
unparsable).  Floats are modelled as exact rationals. -/
structure RawRecord where
  brandDisposed : String
  modelDisposed : Option String
  purchasedBrand : String
  purchasedModel : Option String
  priceRaw : Option ℚ
  sourceWeightRaw : Option ℚ
  loyaltyWeightRaw : Option ℚ
  segment : Option String
  deriving DecidableEq

/-- A normalized row of the loaded dataframe. -/
structure Record where
  brandDisposed : String
  modelDisposed : Option String
  purchasedBrand : String
  purchasedModel : Option String
  priceNum : Option ℚ
  sourceWeight : ℚ
  loyaltyWeight : ℚ
  cleanModelPrev : String
  cleanModelCurr : String
  segment : Option String
  deriving DecidableEq

/-- Python `str(x)` on a cell that may be NaN: `str(nan)` is `"nan"`. -/
def pyStr (cell : Option String) : String := cell.getD "nan"

/-- `brand_mapping` replace (lines 16-18): exact-match alias fixes on the
two brand columns. -/
def brand_mapping (b : String) : String :=
  if b = "Mercedes" then "Mercedes-Benz" else if b = "Vinfast" then "VinFast" else b

/-- `load_data` body for one row (lines 16-36): brand aliases fixed,
price kept as parsed (NaN allowed), weights NaN-filled with `0`
(`fillna(0)` is `Option.getD 0`), clean model names derived. -/
def normalizeRecord (r : RawRecord) : Record :=
  { brandDisposed := brand_mapping r.brandDisposed
    modelDisposed := r.modelDisposed
    purchasedBrand := brand_mapping r.purchasedBrand
    purchasedModel := r.purchasedModel
    priceNum := r.priceRaw
    sourceWeight := r.sourceWeightRaw.getD 0
    loyaltyWeight := r.loyaltyWeightRaw.getD 0
    cleanModelPrev := clean_model_name (brand_mapping r.brandDisposed) (pyStr r.modelDisposed)
    cleanModelCurr := clean_model_name (brand_mapping r.purchasedBrand) (pyStr r.purchasedModel)
    segment := r.segment }

/-- `load_data` (lines 11-37). -/
def load_data (rows : List RawRecord) : List Record := rows.map normalizeRecord

/-! ### Status classification (lines 85, 163, 192, 224-225) -/

/-- `honda_family = ['Honda', 'Acura']` (line 85). -/
def honda_family : List String := ["Honda", "Acura"]

/-- The underlying two-way classification every tab uses. -/
inductive Status where
  | stay
  | outflow
  deriving DecidableEq

/-- A record's status as a function of the purchased brand. -/
def classifyStatus (purchasedBrand : String) : Status :=
  if purchasedBrand ∈ honda_family then Status.stay else Status.outflow

/-- Status label of the overall tab (line 163). -/
def statusLabelOverall (purchasedBrand : String) : String :=
  if purchasedBrand ∈ honda_family then "Stay (Honda/Acura)" else "Outflow (Competitors)"

/-- Status label of the per-model tab (line 192), textually identical to
line 163. -/
def statusLabelSpecific (purchasedBrand : String) : String :=
  if purchasedBrand ∈ honda_family then "Stay (Honda/Acura)" else "Outflow (Competitors)"

/-- Status label of the comparison tab (lines 224-225). -/
def statusLabelCompare (purchasedBrand : String) : String :=
  if purchasedBrand ∈ honda_family then "Stay" else "Outflow"

/-! ### Weighting modes and the mutable dataframe (lines 90-102) -/

/-- The sidebar weighting-mode toggle. -/
inductive WMode where
  | market
  | raw
  deriving DecidableEq

/-- The inflow weight column the mode selects: `Source of Sales Weight`
in market mode, the constant-1 `ones` column in raw mode. -/
def w_in : WMode → Record → ℚ
  | WMode.market => fun r => r.sourceWeight
  | WMode.raw => fun _ => 1

/-- The outflow weight column the mode selects: `Repurchase Loyalty
Weight` in market mode, the constant-1 `ones` column in raw mode. -/
def w_out : WMode → Record → ℚ
  | WMode.market => fun r => r.loyaltyWeight
  | WMode.raw => fun _ => 1

/-- The in-memory dataframe: the normalized records together with the
set of columns added after load (`df['ones'] = 1` appends `ones`). -/
structure DFrame where
  records : List Record
  extraCols : List String
  deriving DecidableEq

/-- The dataframe as produced by `load_data`: no extra columns. -/
def load_df (rows : List RawRecord) : DFrame := ⟨load_data rows, []⟩

/-- Sidebar mode selection (lines 93-102): market mode only picks column
names; raw mode executes `df['ones'] = 1`, adding the constant `ones`
column to the loaded dataframe in place. -/
def select_mode (mode : WMode) (d : DFrame) : DFrame :=
  match mode with
  | WMode.market => d
  | WMode.raw =>
    { d with extraCols :=
        if "ones" ∈ d.extraCols then d.extraCols else d.extraCols ++ ["ones"] }

/-- Sum of a weight column over a set of rows. -/
def sumW (rows : List Record) (w : Record → ℚ) : ℚ := (rows.map w).sum

/-! ### Aggregation engine
`groupby(key)[w].sum().sort_values(ascending=False).head(n)` -/

/-- Stable ascending insertion by summed weight, modelling the ascending
argsort inside pandas `sort_values`: an element is inserted behind every
earlier element of strictly smaller value and in front of the first
element of equal or larger value, so equal values keep their original
relative order. -/
def insertAsc (a : String × ℚ) : List (String × ℚ) → List (String × ℚ)
  | [] => [a]
  | b :: bs => if b.2 < a.2 then b :: insertAsc a bs else a :: b :: bs

/-- Stable ascending insertion sort by value. -/
def sortAsc : List (String × ℚ) → List (String × ℚ)
  | [] => []
  | a :: as => insertAsc a (sortAsc as)

/-- Insertion into a key list in ascending code-point lexicographic
order, modelling the ascending sorted group index of pandas `groupby`
(`sort=True`, the default). -/
def insertKey (a : String) : List String → List String
  | [] => [a]
  | b :: bs => if lexLt b.data a.data then b :: insertKey a bs else a :: b :: bs

/-- Ascending lexical sort of the distinct group keys. -/
def sortKeys : List String → List String
  | [] => []
  | a :: as => insertKey a (sortKeys as)

/-- pandas `groupby(key)[w].sum()`: the distinct keys in ascending
lexical order, each paired with the sum of the weights of its rows. -/
def groupbySum (rows : List (String × ℚ)) : List (String × ℚ) :=
  (sortKeys (rows.map Prod.fst).dedup).map
    (fun k => (k, ((rows.filter (fun r => r.1 == k)).map Prod.snd).sum))

/-- pandas `Series.sort_values(ascending=False)`: an ascending sort
followed by a reversal (pandas `nargsort` computes an ascending argsort
and reverses it with `[::-1]` when `ascending=False`).  The app's default
`kind='quicksort'` is unstable, so the order of equal values is
implementation-defined in the program; this executable model realizes
one such order (that of a stable ascending sort), and only properties
independent of the tie order are asserted about the program. -/
def sort_values_desc (l : List (String × ℚ)) : List (String × ℚ) :=
  (sortAsc l).reverse

/-- `groupby(key)[w].sum().sort_values(ascending=False).head(topN)`, the
aggregation every ranked chart uses (lines 179, 185, 207, 213, 228). -/
def aggregateTop (rows : List (String × ℚ)) (topN : Nat) : List (String × ℚ) :=
  (sort_values_desc (groupbySum rows)).take topN

/-- Total of a weight column over keyed rows. -/
def totalW (rows : List (String × ℚ)) : ℚ := (rows.map Prod.snd).sum

/-- Outflow share (lines 325-335): percentage of the total outflow
weight, `0` when the denominator is not positive. -/
def share (groupWeight totalOutflow : ℚ) : ℚ :=
  if 0 < totalOutflow then groupWeight / totalOutflow * 100 else 0

/-! ### The tab filters (lines 162, 191, 206, 212-213, 222-228, 315-343) -/

/-- `h_all_dis = df[df['Brand (Disposed)'] == 'Honda']` (line 162). -/
def h_all_dis (rows : List Record) : List Record :=
  rows.filter (fun r => r.brandDisposed == "Honda")

/-- `m_df` (line 191): disposed brand Honda, disposed model contains the
selected Honda model case-insensitively (`na=False`). -/
def m_df (rows : List Record) (selected : String) : List Record :=
  rows.filter (fun r =>
    r.brandDisposed == "Honda" && containsOptCI r.modelDisposed selected)

/-- `out_m_df = m_df[m_df['Status'] == 'Outflow (Competitors)']`
(line 212). -/
def out_m_df (rows : List Record) (selected : String) : List Record :=
  (m_df rows selected).filter
    (fun r => statusLabelSpecific r.purchasedBrand == "Outflow (Competitors)")

/-- `out_stats` (line 213). -/
def out_stats (rows : List Record) (selected : String) (w : Record → ℚ)
    (topN : Nat) : List (String × ℚ) :=
  aggregateTop ((out_m_df rows selected).map (fun r => (r.cleanModelCurr, w r))) topN

/-- `competitors_df = m_df_comp[m_df_comp['Status'] == 'Outflow']`
(line 227). -/
def competitors_df (rows : List Record) (selected : String) : List Record :=
  (m_df rows selected).filter
    (fun r => statusLabelCompare r.purchasedBrand == "Outflow")

/-- `top_competitors` (line 228). -/
def top_competitors (rows : List Record) (selected : String) (w : Record → ℚ) :
    List (String × ℚ) :=
  aggregateTop ((competitors_df rows selected).map (fun r => (r.cleanModelCurr, w r))) 20

/-- The four non-disposal placeholder values excluded from the inflow
source-model analysis (line 206). -/
def nonDisposalPlaceholders : List String :=
  ["Did Not Dispose", "Did Not Own", "Did not own", "Did not dispose"]

/-- `in_m` (line 206): purchased model contains the selected model and
the disposed brand is outside `honda_family` plus the placeholders. -/
def in_m (rows : List Record) (selected : String) : List Record :=
  rows.filter (fun r => containsOptCI r.purchasedModel selected &&
    !((honda_family ++ nonDisposalPlaceholders).contains r.brandDisposed))

/-- `honda_data` (lines 315-316): purchased brand Honda, purchased model
contains the selected model case-insensitively. -/
def honda_data (rows : List Record) (selected : String) : List Record :=
  rows.filter (fun r =>
    r.purchasedBrand == "Honda" && containsOptCI r.purchasedModel selected)

/-- `competitor_data = df.copy()` (line 317): the entire loaded dataset. -/
def competitor_data (rows : List Record) : List Record := rows

/-- The competitor card's record set (line 260):
`data_source[data_source['Clean_Model_Curr'] == model_name]` over the
whole dataframe. -/
def competitor_card_rows (rows : List Record) (name : String) : List Record :=
  (competitor_data rows).filter (fun r => r.cleanModelCurr == name)

/-- `model_data['Price_Num'].mean()`: mean over the non-null prices,
`none` when every price is null. -/
def avg_price (rows : List Record) : Option ℚ :=
  let ps := rows.filterMap (fun r => r.priceNum)
  if ps.isEmpty then none else some (ps.sum / ps.length)

/-- `comp_prices` (line 343): the non-null prices of the competitor card
rows, over the whole dataframe. -/
def comp_prices (rows : List Record) (name : String) : List ℚ :=
  (competitor_card_rows rows name).filterMap (fun r => r.priceNum)

/-- Concrete raw row used by the C3 witness: parsed source weight `2`,
missing loyalty weight. -/
def c3raw : RawRecord :=
  ⟨"Honda", some "Civic", "Toyota", some "Camry", none, some 2, none, none⟩

/-- Concrete keyed weights used by the C6 witness. -/
def c6rows : List (String × ℚ) := [("Nissan Altima", 1), ("Toyota Camry", 3)]

lemma cleanCore_eq_spec (brand model : List Char) :
    cleanCore brand model = cleanCoreSpec brand model := by
  cases hws : words (fullToken brand model) with
  | nil => simp [cleanCore, cleanCoreSpec, hws]
  | cons w0 t =>
    cases t with
    | nil => simp [cleanCore, cleanCoreSpec, hws]
    | cons w1 t2 =>
      cases t2 with
      | nil => simp [cleanCore, cleanCoreSpec, hws]
      | cons w2 t3 =>
        by_cases hm : lower' w1 = "model".data <;>
          simp [cleanCore, cleanCoreSpec, hws, hm]

/-- C1: for every pair of input strings, `clean_model_name` returns the
canonical name the spec describes: strip both inputs, build the full
token string (prefixing the brand unless the model already starts with
it case-insensitively), split into whitespace-delimited words, and keep
three words when the second word is the token `model` and at least three
words exist, two words when at least two exist, and the full string
otherwise. -/
theorem clean_model_name_correct (brand model : String) :
    clean_model_name brand model = cleanModelNameSpec brand model :=
  congrArg String.mk (cleanCore_eq_spec brand.data model.data)

/-! ### Structural facts about `words` (Python `str.split()`) -/

lemma data_mk (l : List Char) : (String.mk l).data = l := rfl

lemma words_cons (c : Char) (cs : List Char) :
    words (c :: cs) = if pyIsSpace c then words cs else consWord c cs (words cs) := rfl

lemma consWord_nil (c : Char) (ws : List (List Char)) : consWord c [] ws = [[c]] := rfl

lemma consWord_cons (c d : Char) (tl : List Char) (ws : List (List Char)) :
    consWord c (d :: tl) ws = if pyIsSpace d then [c] :: ws else prependChar c ws := rfl

lemma prependChar_nil (c : Char) : prependChar c [] = [[c]] := rfl

lemma prependChar_cons (c : Char) (w : List Char) (ws2 : List (List Char)) :
    prependChar c (w :: ws2) = (c :: w) :: ws2 := rfl

lemma words_space_cons (c : Char) (hc : pyIsSpace c = true) (t : List Char) :
    words (c :: t) = words t := by
  rw [words_cons, if_pos hc]

lemma words_sound : ∀ (l : List Char), ∀ w ∈ words l,
    w ≠ [] ∧ ∀ c ∈ w, pyIsSpace c = false := by
  intro l
  induction l with
  | nil => intro w hw; simp [words] at hw
  | cons c cs ih =>
    intro w hw
    by_cases hc : pyIsSpace c
    · rw [words_space_cons c hc] at hw
      exact ih w hw
    · rw [words_cons, if_neg hc] at hw
      cases cs with
      | nil =>
        rw [consWord_nil] at hw
        simp at hw
        subst hw
        refine ⟨by simp, ?_⟩
        intro x hx
        simp at hx
        subst hx
        simpa using hc
      | cons d t =>
        by_cases hd : pyIsSpace d
        · rw [consWord_cons, if_pos hd] at hw
          rcases List.mem_cons.mp hw with h | h
          · subst h
            refine ⟨by simp, ?_⟩
            intro x hx
            simp at hx
            subst hx
            simpa using hc
          · exact ih w h
        · cases hws : words (d :: t) with
          | nil =>
            rw [consWord_cons, if_neg hd, hws, prependChar_nil] at hw
            simp at hw
            subst hw
            refine ⟨by simp, ?_⟩
            intro x hx
            simp at hx
            subst hx
            simpa using hc
          | cons w' ws2 =>
            rw [consWord_cons, if_neg hd, hws, prependChar_cons] at hw
            rcases List.mem_cons.mp hw with h | h
            · subst h
              have h' := ih w' (by rw [hws]; exact List.mem_cons_self _ _)
              refine ⟨by simp, ?_⟩
              intro x hx
              rcases List.mem_cons.mp hx with h'' | h''
              · subst h''; simpa using hc
              · exact h'.2 x h''
            · exact ih w (by rw [hws]; exact List.mem_cons_of_mem _ h)

lemma words_all_nonspace : ∀ (w : List Char), w ≠ [] →
    (∀ c ∈ w, pyIsSpace c = false) → words w = [w] := by
  intro w
  induction w with
  | nil => intro h; cases h rfl
  | cons c cs ih =>
    intro _ hns
    have hc : pyIsSpace c = false := hns c (List.mem_cons_self c cs)
    cases cs with
    | nil => rw [words_cons, if_neg (by simp [hc]), consWord_nil]
    | cons d t =>
      have hd : pyIsSpace d = false := hns d (by simp)
      have ih' : words (d :: t) = [d :: t] :=
        ih (by simp) (fun x hx => hns x (List.mem_cons_of_mem c hx))
      rw [words_cons, if_neg (by simp [hc]), consWord_cons, if_neg (by simp [hd]),
        ih', prependChar_cons]

lemma words_append_space : ∀ (w : List Char), w ≠ [] →
    (∀ c ∈ w, pyIsSpace c = false) →
    ∀ (t : List Char), words (w ++ ' ' :: t) = w :: words t := by
  intro w
  induction w with
  | nil => intro h; cases h rfl
  | cons c cs ih =>
    intro _ hns t
    have hc : pyIsSpace c = false := hns c (List.mem_cons_self c cs)
    cases cs with
    | nil =>
      have hsp : pyIsSpace ' ' = true := rfl
      simp only [List.cons_append, List.nil_append]
      rw [words_cons, if_neg (by simp [hc]), consWord_cons, if_pos hsp,
        words_space_cons ' ' hsp t]
    | cons d t2 =>
      have hd : pyIsSpace d = false := hns d (by simp)
      have ih' := ih (by simp) (fun x hx => hns x (List.mem_cons_of_mem c hx)) t
      simp only [List.cons_append] at ih' ⊢
      rw [words_cons, if_neg (by simp [hc]), consWord_cons, if_neg (by simp [hd]),
        ih', prependChar_cons]

/-! ### `str.strip` leaves a clean two-word join unchanged -/

lemma dropWhile_eq_self_of_head (l : List Char)
    (h : ∀ c, l.head? = some c → pyIsSpace c = false) :
    l.dropWhile pyIsSpace = l := by
  cases l with
  | nil => rfl
  | cons a t => simp [List.dropWhile_cons, h a rfl]

lemma strip_join2 (w0 w1 : List Char) (h0 : w0 ≠ [])
    (hns0 : ∀ c ∈ w0, pyIsSpace c = false) (h1 : w1 ≠ [])
    (hns1 : ∀ c ∈ w1, pyIsSpace c = false) :
    strip' (w0 ++ ' ' :: w1) = w0 ++ ' ' :: w1 := by
  obtain ⟨c, cs, rfl⟩ : ∃ c cs, w0 = c :: cs := by
    cases w0 with
    | nil => cases h0 rfl
    | cons c cs => exact ⟨c, cs, rfl⟩
  have hstep1 : (c :: cs ++ ' ' :: w1).dropWhile pyIsSpace = c :: cs ++ ' ' :: w1 := by
    apply dropWhile_eq_self_of_head
    intro x hx
    simp at hx
    subst hx
    exact hns0 c (List.mem_cons_self c cs)
  have hlast : (c :: cs ++ ' ' :: w1).getLast? = w1.getLast? := by
    rw [List.append_cons, List.getLast?_append_of_ne_nil _ h1]
  have hstep2 : (c :: cs ++ ' ' :: w1).reverse.dropWhile pyIsSpace
      = (c :: cs ++ ' ' :: w1).reverse := by
    apply dropWhile_eq_self_of_head
    intro x hx
    rw [List.head?_reverse, hlast] at hx
    exact hns1 x (List.mem_of_mem_getLast? hx)
  unfold strip'
  rw [hstep1, hstep2, List.reverse_reverse]

/-! ### Conditional idempotence of `clean_model_name` -/

lemma cleanCore_two_word (b w0 w1 : List Char) (h0ne : w0 ≠ [])
    (h0ns : ∀ c ∈ w0, pyIsSpace c = false) (h1ne : w1 ≠ [])
    (h1ns : ∀ c ∈ w1, pyIsSpace c = false)
    (hpre : startsWith' (lower' (w0 ++ ' ' :: w1)) (lower' (strip' b)) = true) :
    cleanCore b (w0 ++ ' ' :: w1) = w0 ++ ' ' :: w1 := by
  have hstrip : strip' (w0 ++ ' ' :: w1) = w0 ++ ' ' :: w1 :=
    strip_join2 w0 w1 h0ne h0ns h1ne h1ns
  have hfull : fullToken b (w0 ++ ' ' :: w1) = w0 ++ ' ' :: w1 := by
    unfold fullToken
    rw [hstrip, if_pos hpre]
  have hwords : words (w0 ++ ' ' :: w1) = [w0, w1] := by
    rw [words_append_space w0 h0ne h0ns w1, words_all_nonspace w1 h1ne h1ns]
  simp [cleanCore, hfull, hwords]

theorem cleanCore_idem (b m : List Char)
    (h2 : (words (cleanCore b m)).length = 2)
    (hpre : startsWith' (lower' (cleanCore b m)) (lower' (strip' b)) = true) :
    cleanCore b (cleanCore b m) = cleanCore b m := by
  cases hws : words (fullToken b m) with
  | nil =>
    have hres : cleanCore b m = fullToken b m := by simp [cleanCore, hws]
    rw [hres, hws] at h2
    simp at h2
  | cons w0 t =>
    have hw0 := words_sound (fullToken b m) w0 (by rw [hws]; exact List.mem_cons_self _ _)
    cases t with
    | nil =>
      have hres : cleanCore b m = fullToken b m := by simp [cleanCore, hws]
      rw [hres, hws] at h2
      simp at h2
    | cons w1 t2 =>
      have hw1 := words_sound (fullToken b m) w1
        (by rw [hws]; exact List.mem_cons_of_mem _ (List.mem_cons_self _ _))
      cases t2 with
      | nil =>
        have hres : cleanCore b m = w0 ++ ' ' :: w1 := by
          simp [cleanCore, hws]
        rw [hres] at hpre ⊢
        exact cleanCore_two_word b w0 w1 hw0.1 hw0.2 hw1.1 hw1.2 hpre
      | cons w2 t3 =>
        have hw2 := words_sound (fullToken b m) w2
          (by rw [hws]
              exact List.mem_cons_of_mem _ (List.mem_cons_of_mem _ (List.mem_cons_self _ _)))
        by_cases hm : lower' w1 = "model".data
        · have hres : cleanCore b m = w0 ++ ' ' :: (w1 ++ ' ' :: w2) := by
            simp [cleanCore, hws, hm]
          rw [hres, words_append_space w0 hw0.1 hw0.2,
            words_append_space w1 hw1.1 hw1.2,
            words_all_nonspace w2 hw2.1 hw2.2] at h2
          simp at h2
        · have hres : cleanCore b m = w0 ++ ' ' :: w1 := by
            simp [cleanCore, hws, hm]
          rw [hres] at hpre ⊢
          exact cleanCore_two_word b w0 w1 hw0.1 hw0.2 hw1.1 hw1.2 hpre

/-- C8 counterexample: `clean_model_name` is not idempotent on every
two-word result.  With brand `"Tesla  Model"` (two spaces) and model
`"Tesla  ModelX"`, the first pass returns the two-word string
`"Tesla ModelX"`, but re-applying the function to the brand and that
result returns `"Tesla Model Tesla"`: the single-space result no longer
starts with the double-spaced brand, so the brand is prefixed again and
the `model`-token branch fires. -/
theorem clean_model_name_not_idem :
    clean_model_name "Tesla  Model" "Tesla  ModelX" = "Tesla ModelX" ∧
    (pySplit (clean_model_name "Tesla  Model" "Tesla  ModelX")).length = 2 ∧
    clean_model_name "Tesla  Model" (clean_model_name "Tesla  Model" "Tesla  ModelX")
      ≠ clean_model_name "Tesla  Model" "Tesla  ModelX" := by
  refine ⟨by decide, by decide, by decide⟩

/-- C8 (amended): `clean_model_name` is deterministic and total (it is a
pure Lean function), and it is idempotent in the two-word case provided
the two-word result still starts, case-insensitively, with the stripped
brand: under that proviso re-applying the function to the brand and the
result returns the result unchanged. -/
theorem clean_model_name_idem_of_startswith (brand model : String)
    (h2 : (pySplit (clean_model_name brand model)).length = 2)
    (hpre : pyStartswith (pyLower (clean_model_name brand model))
      (pyLower (pyStrip brand)) = true) :
    clean_model_name brand (clean_model_name brand model)
      = clean_model_name brand model := by
  have h2' : (words (cleanCore brand.data model.data)).length = 2 := by
    simpa [pySplit, clean_model_name, data_mk] using h2
  have hpre' : startsWith' (lower' (cleanCore brand.data model.data))
      (lower' (strip' brand.data)) = true := by
    simpa [pyStartswith, pyLower, pyStrip, clean_model_name, startsWith', data_mk] using hpre
  exact congrArg String.mk (cleanCore_idem brand.data model.data h2' hpre')

/-- C8 witness: the amended idempotence applies to
`clean_model_name "Toyota" "Camry XLE" = "Toyota Camry"`. -/
theorem clean_model_name_idem_witness :
    (pySplit (clean_model_name "Toyota" "Camry XLE")).length = 2 ∧
    pyStartswith (pyLower (clean_model_name "Toyota" "Camry XLE"))
      (pyLower (pyStrip "Toyota")) = true ∧
    clean_model_name "Toyota" (clean_model_name "Toyota" "Camry XLE")
      = clean_model_name "Toyota" "Camry XLE" :=
  ⟨by decide, by decide,
    clean_model_name_idem_of_startswith "Toyota" "Camry XLE" (by decide) (by decide)⟩

/-! ### C2: status classification -/

lemma mem_honda_family (b : String) :
    b ∈ honda_family ↔ b = "Honda" ∨ b = "Acura" := by
  simp [honda_family]

/-- C2: status classification is a pure function of the purchased brand
alone: a record is classified Stay exactly when the purchased brand is in
the focal family Honda/Acura, Outflow otherwise, so every record gets
exactly one of the two statuses; and the three classification sites
(overall tab line 163, model tab line 192, compare tab lines 224-225)
all realize this same classification, only their display labels differ. -/
theorem status_classification_correct (b : String) :
    (classifyStatus b = Status.stay ↔ (b = "Honda" ∨ b = "Acura")) ∧
    (classifyStatus b = Status.outflow ↔ ¬(b = "Honda" ∨ b = "Acura")) ∧
    (statusLabelOverall b = "Stay (Honda/Acura)" ↔ classifyStatus b = Status.stay) ∧
    (statusLabelOverall b = "Outflow (Competitors)" ↔ classifyStatus b = Status.outflow) ∧
    (statusLabelSpecific b = statusLabelOverall b) ∧
    (statusLabelCompare b = "Stay" ↔ classifyStatus b = Status.stay) ∧
    (statusLabelCompare b = "Outflow" ↔ classifyStatus b = Status.outflow) := by
  by_cases h1 : b = "Honda"
  · subst h1; decide
  · by_cases h2 : b = "Acura"
    · subst h2; decide
    · have hmem : b ∉ honda_family := by simp [honda_family, h1, h2]
      simp [classifyStatus, statusLabelOverall, statusLabelSpecific, statusLabelCompare,
        hmem, h1, h2]

/-! ### C3: weight normalization -/

/-- C3 counterexample: load-time normalization does not force the weights
to be non-negative: a parsable negative raw weight value (here `-2`)
survives `pd.to_numeric(...).fillna(0)` unchanged, so a record with
`sourceWeight < 0` exists after normalization. -/
theorem normalize_weight_negative :
    (normalizeRecord
      ⟨"Honda", some "Civic", "Toyota", some "Camry", none, some (-2), some 1, none⟩).sourceWeight
      < 0 := by
  decide

/-- C3 (amended): after load-time normalization the weights are never
null/NaN: a missing or unparsable weight becomes exactly `0` and a parsed
value is kept exactly; the normalized weights are non-negative whenever
every parsed raw weight value is non-negative — the normalization itself
does not clamp negative parsed values (see the counterexample). -/
theorem normalize_weights_never_nan (r : RawRecord) :
    (r.sourceWeightRaw = none → (normalizeRecord r).sourceWeight = 0) ∧
    (∀ q : ℚ, r.sourceWeightRaw = some q → (normalizeRecord r).sourceWeight = q) ∧
    ((∀ q ∈ r.sourceWeightRaw, 0 ≤ q) → 0 ≤ (normalizeRecord r).sourceWeight) ∧
    (r.loyaltyWeightRaw = none → (normalizeRecord r).loyaltyWeight = 0) ∧
    (∀ q : ℚ, r.loyaltyWeightRaw = some q → (normalizeRecord r).loyaltyWeight = q) ∧
    ((∀ q ∈ r.loyaltyWeightRaw, 0 ≤ q) → 0 ≤ (normalizeRecord r).loyaltyWeight) := by
  refine ⟨fun h => by simp [normalizeRecord, h], fun q h => by simp [normalizeRecord, h],
    fun h => ?_, fun h => by simp [normalizeRecord, h], fun q h => by simp [normalizeRecord, h],
    fun h => ?_⟩
  · cases hq : r.sourceWeightRaw with
    | none => simp [normalizeRecord, hq]
    | some q =>
      have hq0 := h q (by simp [hq])
      simp [normalizeRecord, hq, hq0]
  · cases hq : r.loyaltyWeightRaw with
    | none => simp [normalizeRecord, hq]
    | some q =>
      have hq0 := h q (by simp [hq])
      simp [normalizeRecord, hq, hq0]

/-- C3 witness: on a concrete row with parsed source weight `2` and
missing loyalty weight, the amended theorem yields `0 ≤ sourceWeight` and
`loyaltyWeight = 0`. -/
theorem normalize_weights_never_nan_witness :
    (0:ℚ) ≤ (normalizeRecord c3raw).sourceWeight ∧
    (normalizeRecord c3raw).loyaltyWeight = 0 := by
  constructor
  · apply (normalize_weights_never_nan c3raw).2.2.1
    intro q hq
    simp [c3raw] at hq
    rw [← hq]
    norm_num
  · exact (normalize_weights_never_nan c3raw).2.2.2.1 rfl

/-! ### C5: raw mode counts rows -/

lemma sum_map_one (l : List Record) :
    (l.map (fun _ => (1:ℚ))).sum = l.length := by
  induction l with
  | nil => simp
  | cons a t ih =>
    simp [ih]
    ring

/-- C5: in raw weighting mode every record contributes the uniform weight
1 (both weight-column selectors become the constant-1 `ones` column), so
the aggregation sum over any filtered subset equals exactly that subset's
row count; the two modes differ only in the selected weight column, the
aggregation pipeline (`out_stats`, `top_competitors`, ...) being
parameterized by the column function alone. -/
theorem raw_mode_counts (rows : List Record) (p : Record → Bool) :
    (∀ r : Record, w_in WMode.raw r = 1 ∧ w_out WMode.raw r = 1) ∧
    sumW (rows.filter p) (w_in WMode.raw) = ((rows.filter p).length : ℚ) ∧
    sumW (rows.filter p) (w_out WMode.raw) = ((rows.filter p).length : ℚ) := by
  refine ⟨fun r => ⟨rfl, rfl⟩, ?_, ?_⟩ <;>
    simp [sumW, w_in, w_out, sum_map_one]

/-! ### C7: the loaded dataframe is not immutable -/

/-- C7 counterexample: selecting the raw weighting mode executes
`df['ones'] = 1`, which adds the `ones` column to the loaded dataframe:
the dataframe after mode selection differs from the loaded one. -/
theorem select_mode_mutates_df :
    select_mode WMode.raw (load_df []) ≠ load_df [] := by
  decide

/-- C7 (amended): no record of the loaded dataset is ever modified — mode
selection leaves the records of the dataframe unchanged and market mode
leaves the frame fully unchanged — but raw mode may append the constant
`ones` column, so the column set can grow; all the other session
operations (filtering, aggregation, chart preparation) are pure functions
of the dataframe and return fresh values. -/
theorem select_mode_frame (mode : WMode) (d : DFrame) :
    (select_mode mode d).records = d.records ∧
    select_mode WMode.market d = d ∧
    ((select_mode mode d).extraCols = d.extraCols ∨
      (select_mode mode d).extraCols = d.extraCols ++ ["ones"]) := by
  cases mode with
  | market => exact ⟨rfl, rfl, Or.inl rfl⟩
  | raw =>
    refine ⟨rfl, rfl, ?_⟩
    by_cases h : "ones" ∈ d.extraCols
    · exact Or.inl (by simp [select_mode, h])
    · exact Or.inr (by simp [select_mode, h])

/-! ### C9: comparison-card scopes -/

/-- C9: in the comparison card, the competitor model's statistics are
computed over every record of the entire loaded dataset whose
`Clean_Model_Curr` equals the selected competitor name — with no
restriction to outflow records of the selected Honda model — while the
Honda card's records are exactly those whose purchased brand is Honda
and whose purchased model contains the selected model name
case-insensitively; the competitor price distribution is likewise drawn
from the whole dataset. -/
theorem competitor_card_scope (rows : List Record) (selected name : String) (r : Record) :
    (r ∈ competitor_card_rows rows name ↔ r ∈ rows ∧ r.cleanModelCurr = name) ∧
    (r ∈ honda_data rows selected ↔ r ∈ rows ∧ r.purchasedBrand = "Honda"
        ∧ containsOptCI r.purchasedModel selected = true) ∧
    comp_prices rows name
      = (rows.filter (fun x => x.cleanModelCurr == name)).filterMap (fun x => x.priceNum) ∧
    avg_price (competitor_card_rows rows name)
      = avg_price (rows.filter (fun x => x.cleanModelCurr == name)) := by
  refine ⟨?_, ?_, rfl, rfl⟩
  · simp [competitor_card_rows, competitor_data, List.mem_filter]
  · simp [honda_data, List.mem_filter, and_assoc]

/-! ### C10: the inflow source-model filter -/

/-- C10: the inflow-source aggregation selects exactly the records whose
purchased model contains the selected Honda model name case-insensitively
and whose disposed brand is none of Honda, Acura, and the four
non-disposal placeholder values. -/
theorem in_m_filter_correct (rows : List Record) (selected : String) (r : Record) :
    r ∈ in_m rows selected ↔
      r ∈ rows ∧ containsOptCI r.purchasedModel selected = true ∧
      r.brandDisposed ≠ "Honda" ∧ r.brandDisposed ≠ "Acura" ∧
      r.brandDisposed ≠ "Did Not Dispose" ∧ r.brandDisposed ≠ "Did Not Own" ∧
      r.brandDisposed ≠ "Did not own" ∧ r.brandDisposed ≠ "Did not dispose" := by
  simp [in_m, honda_family, nonDisposalPlaceholders, List.mem_filter, not_or, and_assoc]

/-! ### C4: order of the aggregation output -/

lemma lexLt_irrefl (a : List Char) : lexLt a a = false := by
  induction a with
  | nil => rfl
  | cons x xs ih => simp [lexLt, ih]

lemma lexLt_trans : ∀ (a b c : List Char), lexLt a b = true → lexLt b c = true →
    lexLt a c = true := by
  intro a
  induction a with
  | nil =>
    intro b c hab hbc
    cases b with
    | nil => simp [lexLt] at hab
    | cons y ys =>
      cases c with
      | nil => simp [lexLt] at hbc
      | cons z zs => simp [lexLt]
  | cons x xs ih =>
    intro b c hab hbc
    cases b with
    | nil => simp [lexLt] at hab
    | cons y ys =>
      cases c with
      | nil => simp [lexLt] at hbc
      | cons z zs =>
        simp only [lexLt] at hab hbc ⊢
        by_cases hxy : x < y
        · by_cases hyz : y < z
          · rw [if_pos (lt_trans hxy hyz)]
          · rw [if_neg hyz] at hbc
            by_cases hzy : z < y
            · rw [if_pos hzy] at hbc; cases hbc
            · have hyzEq : y = z := le_antisymm (not_lt.mp hzy) (not_lt.mp hyz)
              rw [if_pos (hyzEq ▸ hxy)]
        · rw [if_neg hxy] at hab
          by_cases hyx : y < x
          · rw [if_pos hyx] at hab; cases hab
          · rw [if_neg hyx] at hab
            have hxyEq : x = y := le_antisymm (not_lt.mp hyx) (not_lt.mp hxy)
            subst hxyEq
            by_cases hxz : x < z
            · rw [if_pos hxz]
            · rw [if_neg hxz] at hbc ⊢
              by_cases hzx : z < x
              · rw [if_pos hzx] at hbc; cases hbc
              · rw [if_neg hzx] at hbc ⊢
                exact ih ys zs hab hbc

lemma lexLt_tricho : ∀ (a b : List Char), a ≠ b →
    lexLt a b = true ∨ lexLt b a = true := by
  intro a
  induction a with
  | nil =>
    intro b hne
    cases b with
    | nil => cases hne rfl
    | cons y ys => left; simp [lexLt]
  | cons x xs ih =>
    intro b hne
    cases b with
    | nil => right; simp [lexLt]
    | cons y ys =>
      by_cases hxy : x < y
      · left; simp [lexLt, hxy]
      · by_cases hyx : y < x
        · right; simp [lexLt, hyx]
        · have hx : x = y := le_antisymm (not_lt.mp hyx) (not_lt.mp hxy)
          subst hx
          have hne' : xs ≠ ys := fun h => hne (by rw [h])
          rcases ih ys hne' with h | h
          · left; simp [lexLt, h]
          · right; simp [lexLt, h]

lemma data_inj {a b : String} (h : a.data = b.data) : a = b := by
  cases a
  cases b
  exact congrArg String.mk h

lemma insertKey_cons (a b : String) (bs : List String) :
    insertKey a (b :: bs)
      = if lexLt b.data a.data then b :: insertKey a bs else a :: b :: bs := rfl

lemma sortKeys_cons (a : String) (as : List String) :
    sortKeys (a :: as) = insertKey a (sortKeys as) := rfl

lemma mem_insertKey (a x : String) : ∀ (l : List String),
    (x ∈ insertKey a l ↔ x = a ∨ x ∈ l) := by
  intro l
  induction l with
  | nil => simp [insertKey]
  | cons b bs ih =>
    by_cases h : lexLt b.data a.data
    · rw [insertKey_cons, if_pos h]
      simp [ih]
      tauto
    · rw [insertKey_cons, if_neg h]
      simp

lemma mem_sortKeys (x : String) : ∀ (l : List String), x ∈ sortKeys l ↔ x ∈ l := by
  intro l
  induction l with
  | nil => simp [sortKeys]
  | cons a as ih =>
    rw [sortKeys_cons, mem_insertKey]
    simp [ih]

lemma pairwise_insertKey (a : String) : ∀ (l : List String),
    l.Pairwise (fun x y => lexLt x.data y.data = true) → a ∉ l →
    (insertKey a l).Pairwise (fun x y => lexLt x.data y.data = true) := by
  intro l
  induction l with
  | nil =>
    intro _ _
    simp [insertKey]
  | cons b bs ih =>
    intro hl ha
    rcases List.pairwise_cons.mp hl with ⟨hb, hbs⟩
    by_cases h : lexLt b.data a.data
    · rw [insertKey_cons, if_pos h]
      refine List.pairwise_cons.mpr
        ⟨?_, ih hbs (fun hm => ha (List.mem_cons_of_mem b hm))⟩
      intro y hy
      rcases (mem_insertKey a y bs).mp hy with rfl | hmem
      · exact h
      · exact hb y hmem
    · rw [insertKey_cons, if_neg h]
      have hne : a.data ≠ b.data := fun hEq =>
        ha (by rw [data_inj hEq]; exact List.mem_cons_self b bs)
      have hab : lexLt a.data b.data = true := by
        rcases lexLt_tricho a.data b.data hne with hh | hh
        · exact hh
        · exact absurd hh (by simp [h])
      refine List.pairwise_cons.mpr ⟨?_, hl⟩
      intro y hy
      rcases List.mem_cons.mp hy with rfl | hmem
      · exact hab
      · exact lexLt_trans a.data b.data y.data hab (hb y hmem)

lemma pairwise_sortKeys : ∀ (l : List String), l.Nodup →
    (sortKeys l).Pairwise (fun x y => lexLt x.data y.data = true) := by
  intro l
  induction l with
  | nil => simp [sortKeys]
  | cons a as ih =>
    intro h
    rcases List.nodup_cons.mp h with ⟨hna, hnd⟩
    rw [sortKeys_cons]
    exact pairwise_insertKey a (sortKeys as) (ih hnd)
      (fun hm => hna ((mem_sortKeys a as).mp hm))

lemma insertAsc_nil (a : String × ℚ) : insertAsc a [] = [a] := rfl

lemma insertAsc_cons (a b : String × ℚ) (bs : List (String × ℚ)) :
    insertAsc a (b :: bs)
      = if b.2 < a.2 then b :: insertAsc a bs else a :: b :: bs := rfl

lemma sortAsc_nil : sortAsc [] = [] := rfl

lemma sortAsc_cons (a : String × ℚ) (as : List (String × ℚ)) :
    sortAsc (a :: as) = insertAsc a (sortAsc as) := rfl

lemma mem_insertAsc (a x : String × ℚ) : ∀ (l : List (String × ℚ)),
    (x ∈ insertAsc a l ↔ x = a ∨ x ∈ l) := by
  intro l
  induction l with
  | nil => simp [insertAsc]
  | cons b bs ih =>
    by_cases h : b.2 < a.2
    · rw [insertAsc_cons, if_pos h]
      simp [ih]
      tauto
    · rw [insertAsc_cons, if_neg h]
      simp

lemma mem_sortAsc (x : String × ℚ) : ∀ (l : List (String × ℚ)),
    x ∈ sortAsc l ↔ x ∈ l := by
  intro l
  induction l with
  | nil => simp [sortAsc]
  | cons a as ih =>
    rw [sortAsc_cons, mem_insertAsc]
    simp [ih]

lemma pairwise_insertAsc_le (a : String × ℚ) : ∀ (l : List (String × ℚ)),
    l.Pairwise (fun x y => x.2 ≤ y.2) →
    (insertAsc a l).Pairwise (fun x y => x.2 ≤ y.2) := by
  intro l
  induction l with
  | nil =>
    intro _
    simp [insertAsc]
  | cons b bs ih =>
    intro hl
    rcases List.pairwise_cons.mp hl with ⟨hb, hbs⟩
    by_cases h : b.2 < a.2
    · rw [insertAsc_cons, if_pos h]
      refine List.pairwise_cons.mpr ⟨?_, ih hbs⟩
      intro y hy
      rcases (mem_insertAsc a y bs).mp hy with rfl | hmem
      · exact le_of_lt h
      · exact hb y hmem
    · rw [insertAsc_cons, if_neg h]
      refine List.pairwise_cons.mpr ⟨?_, hl⟩
      intro y hy
      rcases List.mem_cons.mp hy with rfl | hmem
      · exact not_lt.mp h
      · exact le_trans (not_lt.mp h) (hb y hmem)

lemma pairwise_sortAsc_le : ∀ (l : List (String × ℚ)),
    (sortAsc l).Pairwise (fun x y => x.2 ≤ y.2) := by
  intro l
  induction l with
  | nil => simp [sortAsc]
  | cons a as ih =>
    rw [sortAsc_cons]
    exact pairwise_insertAsc_le a (sortAsc as) ih

lemma nodup_sortKeys (l : List String) (h : l.Nodup) : (sortKeys l).Nodup :=
  (pairwise_sortKeys l h).imp (fun hxy hEq => by
    rw [hEq, lexLt_irrefl] at hxy
    cases hxy)

/-- C4 counterexample: ties between groups of equal summed weight are
not returned in ascending lexical key order.  Two groups of weight 1
with keys `Nissan Altima < Toyota Camry` come back in the order
`Toyota Camry, Nissan Altima`: the ascending groupby index is reversed
by the descending value sort, violating the claimed ordering.  (On this
two-element tied array numpy's sort is its insertion-sort small-array
case, which is stable, so the program's actual output here is exactly
this reversed order; on larger tied arrays the default `quicksort` kind
fixes no order at all — either way the claimed ascending lexical
tie-break does not hold.) -/
theorem aggregateTop_tie_not_lexical :
    aggregateTop [("Toyota Camry", (1:ℚ)), ("Nissan Altima", (1:ℚ))] 10
      = [("Toyota Camry", (1:ℚ)), ("Nissan Altima", (1:ℚ))] ∧
    lexLt "Nissan Altima".data "Toyota Camry".data = true ∧
    ¬ (aggregateTop [("Toyota Camry", (1:ℚ)), ("Nissan Altima", (1:ℚ))] 10).Pairwise
        (fun a b => b.2 < a.2 ∨ (b.2 = a.2 ∧ lexLt a.1.data b.1.data = true)) := by
  have hg : groupbySum [("Toyota Camry", (1:ℚ)), ("Nissan Altima", (1:ℚ))]
      = [("Nissan Altima", (1:ℚ)), ("Toyota Camry", (1:ℚ))] := by
    unfold groupbySum
    rw [show (([("Toyota Camry", (1:ℚ)), ("Nissan Altima", (1:ℚ))].map Prod.fst).dedup)
        = ["Toyota Camry", "Nissan Altima"] from by decide]
    rw [show sortKeys ["Toyota Camry", "Nissan Altima"]
        = ["Nissan Altima", "Toyota Camry"] from by decide]
    simp
  have h1 : aggregateTop [("Toyota Camry", (1:ℚ)), ("Nissan Altima", (1:ℚ))] 10
      = [("Toyota Camry", (1:ℚ)), ("Nissan Altima", (1:ℚ))] := by
    unfold aggregateTop sort_values_desc
    rw [hg, sortAsc_cons, sortAsc_cons, sortAsc_nil, insertAsc_nil, insertAsc_cons,
      if_neg (lt_irrefl (1:ℚ))]
    simp
  refine ⟨h1, by decide, ?_⟩
  rw [h1]
  intro hp
  rcases List.pairwise_cons.mp hp with ⟨hrel, _⟩
  have hcase := hrel ("Nissan Altima", (1:ℚ)) (List.mem_cons_self _ _)
  rcases hcase with h | ⟨_, h⟩
  · exact lt_irrefl (1:ℚ) h
  · exact absurd h (by decide)

/-- C4 (amended): every aggregation output
(`groupby(...).sum().sort_values(ascending=False).head(topN)`, the
pipeline behind `out_stats`, `top_competitors` and the brand charts)
contains at most `topN` groups, sorted in non-increasing order of summed
weight; ties between groups of equal summed weight are *not* broken by
ascending lexical order of the group key (see the counterexample) — the
app sorts with pandas' default unstable `quicksort` kind, which
guarantees no particular order among equal-weight groups, so only the
value-sortedness and the length bound are program guarantees. -/
theorem aggregateTop_sorted (pairs : List (String × ℚ)) (topN : Nat) :
    (aggregateTop pairs topN).length ≤ topN ∧
    (aggregateTop pairs topN).Pairwise (fun a b => b.2 ≤ a.2) := by
  have hdesc : (sort_values_desc (groupbySum pairs)).Pairwise
      (fun a b => b.2 ≤ a.2) := by
    unfold sort_values_desc
    exact List.pairwise_reverse.mpr (pairwise_sortAsc_le (groupbySum pairs))
  exact ⟨List.length_take_le _ _, hdesc.sublist (List.take_sublist _ _)⟩

/-! ### C6: outflow shares -/

lemma sum_filter_split (p : String × ℚ → Bool) : ∀ (rows : List (String × ℚ)),
    ((rows.filter p).map Prod.snd).sum
      + ((rows.filter (fun r => !p r)).map Prod.snd).sum
      = (rows.map Prod.snd).sum := by
  intro rows
  induction rows with
  | nil => simp
  | cons r rs ih =>
    by_cases h : p r = true
    · simp [List.filter_cons, h]
      rw [← ih]
      ring
    · have h' : p r = false := by simpa using h
      simp [List.filter_cons, h']
      rw [← ih]
      ring

lemma sum_groups : ∀ (keys : List String) (rows : List (String × ℚ)),
    keys.Nodup → (∀ r ∈ rows, r.1 ∈ keys) →
    (keys.map (fun k => ((rows.filter (fun r => r.1 == k)).map Prod.snd).sum)).sum
      = (rows.map Prod.snd).sum := by
  intro keys
  induction keys with
  | nil =>
    intro rows _ hcov
    have hr : rows = [] := by
      cases rows with
      | nil => rfl
      | cons r rs => exact absurd (hcov r (List.mem_cons_self r rs)) (List.not_mem_nil r.1)
    subst hr
    simp
  | cons k ks ih =>
    intro rows hnd hcov
    rcases List.nodup_cons.mp hnd with ⟨hk, hks⟩
    have hsplit := sum_filter_split (fun r => r.1 == k) rows
    have hfilters : ∀ k' ∈ ks,
        rows.filter (fun r => r.1 == k')
          = (rows.filter (fun r => !(r.1 == k))).filter (fun r => r.1 == k') := by
      intro k' hk'
      rw [List.filter_filter]
      apply List.filter_congr
      intro x _
      by_cases hx1 : x.1 = k'
      · have hne : ¬(k' = k) := fun hEq => hk (hEq ▸ hk')
        simp [hx1, hne]
      · simp [hx1]
    have hcovB : ∀ r ∈ rows.filter (fun r => !(r.1 == k)), r.1 ∈ ks := by
      intro r hr
      rcases List.mem_filter.mp hr with ⟨hmem, hcond⟩
      rcases List.mem_cons.mp (hcov r hmem) with hEq | h
      · rw [hEq] at hcond
        simp at hcond
      · exact h
    have hmapeq : ks.map (fun k' => ((rows.filter (fun r => r.1 == k')).map Prod.snd).sum)
        = ks.map (fun k' =>
            (((rows.filter (fun r => !(r.1 == k))).filter
              (fun r => r.1 == k')).map Prod.snd).sum) :=
      List.map_congr_left (fun k' hk' => by rw [hfilters k' hk'])
    rw [List.map_cons, List.sum_cons, hmapeq,
      ih (rows.filter (fun r => !(r.1 == k))) hks hcovB]
    exact hsplit

lemma groupbySum_total (rows : List (String × ℚ)) :
    ((groupbySum rows).map Prod.snd).sum = totalW rows := by
  unfold groupbySum totalW
  rw [List.map_map]
  exact sum_groups (sortKeys (rows.map Prod.fst).dedup) rows
    (nodup_sortKeys _ (List.nodup_dedup _))
    (fun r hr => (mem_sortKeys r.1 _).mpr
      (List.mem_dedup.mpr (List.mem_map_of_mem Prod.fst hr)))

/-- C6: the outflow share is `groupWeight / totalOutflowWeight * 100`
whenever the total outflow weight is positive, and `0` when the total is
`0` (the guarded branch, never a division error); and when the total is
positive the shares over all outflow groups (one group per distinct
`Clean_Model_Curr` key, the grouping `groupbySum` of the aggregation)
sum to exactly `100` — exact in `ℚ`, hence within any floating-point
tolerance. -/
theorem share_correct (rows : List (String × ℚ)) (g t : ℚ)
    (ht : 0 < totalW rows) :
    (0 < t → share g t = g / t * 100) ∧
    share g 0 = 0 ∧
    ((groupbySum rows).map (fun x => share x.2 (totalW rows))).sum = 100 := by
  refine ⟨fun h => by rw [share, if_pos h], by simp [share], ?_⟩
  have hne : totalW rows ≠ 0 := ne_of_gt ht
  have heach : ∀ x ∈ groupbySum rows,
      share x.2 (totalW rows) = x.2 * (100 / totalW rows) := by
    intro x _
    rw [share, if_pos ht]
    ring
  rw [List.map_congr_left heach,
    List.sum_map_mul_right (groupbySum rows) Prod.snd (100 / totalW rows),
    groupbySum_total rows, mul_comm]
  exact div_mul_cancel₀ 100 hne

/-- C6 witness: with groups `Nissan Altima ↦ 1` and `Toyota Camry ↦ 3`
the total outflow weight is `4 > 0` and the two shares (25 and 75) sum
to `100`. -/
theorem share_correct_witness :
    (0 < totalW c6rows) ∧
    share (1:ℚ) 4 = 1 / 4 * 100 ∧
    ((groupbySum c6rows).map (fun x => share x.2 (totalW c6rows))).sum = 100 := by
  have ht : 0 < totalW c6rows := by norm_num [totalW, c6rows]
  exact ⟨ht, (share_correct c6rows 1 4 ht).1 (by norm_num),
    (share_correct c6rows 1 4 ht).2.2⟩
